import Mathlib

/-!
Verification of the cutting-optimization repository.

The placement algorithm present in the sources is the function
calcularArranjo (frontend App.tsx): an FFDH shelf heuristic that expands
the registered pieces by quantity, stable-sorts them by height descending,
and fills horizontal shelves left to right, skipping pieces that do not
fit the remaining row width and stopping when the next shelf would exceed
the roll-length bound.

Shallow-embedding conventions:
- JavaScript numbers are modelled as Int (the algorithm only adds and
  compares them).
- The unbounded roll length (comprimentoMax = Infinity when the entered
  comprimentoRolo is not positive) is modelled as Option Int, none meaning
  unbounded; leOpt is the comparison against that possibly-infinite bound.
- JavaScript Array.prototype.sort with comparator (a, b) => b.altura -
  a.altura is a stable sort by height descending; a stable sort is
  extensionally determined by its key order, so it is modelled by a stable
  insertion sort (sortDesc).
- The outer while loop of calcularArranjo can genuinely diverge (no piece
  fits the roll width and the length is unbounded), so the loop is modelled
  with an explicit fuel parameter; the value none marks fuel exhaustion and
  every run of the JavaScript loop that terminates is reproduced by every
  sufficiently large fuel.
-/

/-- A piece as handled by calcularArranjo after expansion: the objects
pushed into todasPecas, carrying largura and altura. -/
structure Peca where
  largura : Int
  altura : Int
deriving DecidableEq, Repr

/-- A registered piece type as stored in the pecas state by adicionarPeca:
largura, altura and quantidade. -/
structure PecaQtd where
  largura : Int
  altura : Int
  quantidade : Nat
deriving DecidableEq, Repr

/-- An entry of the resultado array of calcularArranjo: position and
as-placed dimensions. -/
structure Placement where
  x : Int
  y : Int
  largura : Int
  altura : Int
deriving DecidableEq, Repr

/-- Comparison of a value against the possibly-infinite length bound:
v <= comprimentoMax, where none models Infinity. -/
def leOpt (v : Int) : Option Int → Bool
  | none => true
  | some m => decide (v ≤ m)

/-- Expansion step of calcularArranjo:
pecas.flatMap(peca => Array(peca.quantidade).fill({largura, altura})). -/
def expandPecas : List PecaQtd → List Peca
  | [] => []
  | p :: rest => List.replicate p.quantidade ⟨p.largura, p.altura⟩ ++ expandPecas rest

/-- Stable insertion of a piece into a height-descending list: the piece
goes before the first element whose altura is not larger, hence after all
strictly taller elements and before earlier-inserted equal heights. -/
def insertDesc (p : Peca) : List Peca → List Peca
  | [] => [p]
  | q :: rest => if q.altura ≤ p.altura then p :: q :: rest else q :: insertDesc p rest

/-- Stable sort by altura descending, modelling
todasPecas.sort((a, b) => b.altura - a.altura) of calcularArranjo. -/
def sortDesc : List Peca → List Peca
  | [] => []
  | p :: rest => insertDesc p (sortDesc rest)

/-- The inner while loop of calcularArranjo: scan the remaining pieces with
row cursor x; a piece whose width fits the remaining row capacity is placed
at (x, y) and removed (splice) provided the shelf respects the length
bound, a too-wide piece is skipped (i++), and when the length bound fails
at a width-fitting piece the scan stops (i = todasPecas.length) leaving the
rest untouched. Returns the placements of this shelf and the remaining
pieces. -/
def fillShelf (W : Int) (cmax : Option Int) (y shelfA : Int) :
    List Peca → Int → List Placement × List Peca
  | [], _ => ([], [])
  | p :: rest, x =>
    if x + p.largura ≤ W then
      if leOpt (y + shelfA) cmax then
        let r := fillShelf W cmax y shelfA rest (x + p.largura)
        (⟨x, y, p.largura, p.altura⟩ :: r.1, r.2)
      else ([], p :: rest)
    else
      let r := fillShelf W cmax y shelfA rest x
      (r.1, p :: r.2)

/-- The outer while loop of calcularArranjo: while pieces remain, open a
shelf of height todasPecas[0].altura, fill it from x = 0, then either break
(when y + shelfAltura exceeds the bound) or advance y and comprimentoTotal
by the shelf height. Fuel models the possible divergence of the JavaScript
loop; none is returned exactly when the fuel runs out. -/
def calcLoop (W : Int) (cmax : Option Int) :
    Nat → List Peca → Int → Int → Option (List Placement × Int)
  | _, [], _, compr => some ([], compr)
  | 0, _ :: _, _, _ => none
  | fuel + 1, p :: rest, y, compr =>
    let r := fillShelf W cmax y p.altura (p :: rest) 0
    if leOpt (y + p.altura) cmax then
      match calcLoop W cmax fuel r.2 (y + p.altura) (compr + p.altura) with
      | some (pl, c) => some (r.1 ++ pl, c)
      | none => none
    else
      some (r.1, compr)

/-- The function calcularArranjo: expand, stable-sort by height descending,
derive the length bound (Infinity when comprimentoRolo is not positive),
and run the shelf loop from y = 0, comprimentoTotal = 0. The returned pair
is (arranjo, comprimentoUtilizado). -/
def calcularArranjo (pecas : List PecaQtd) (larguraRolo comprimentoRolo : Int)
    (fuel : Nat) : Option (List Placement × Int) :=
  calcLoop larguraRolo (if 0 < comprimentoRolo then some comprimentoRolo else none)
    fuel (sortDesc (expandPecas pecas)) 0 0

/-- The heights of the shelves that calcularArranjo opens without
triggering the length-bound break, in order: the same recursion as
calcLoop, recording todasPecas[0].altura for each iteration that passes
the bound check. -/
def shelfHeights (W : Int) (cmax : Option Int) :
    Nat → List Peca → Int → Option (List Int)
  | _, [], _ => some []
  | 0, _ :: _, _ => none
  | fuel + 1, p :: rest, y =>
    let r := fillShelf W cmax y p.altura (p :: rest) 0
    if leOpt (y + p.altura) cmax then
      match shelfHeights W cmax fuel r.2 (y + p.altura) with
      | some hs => some (p.altura :: hs)
      | none => none
    else
      some []

/-- The shelf heights of a full calcularArranjo run. -/
def shelfHeightsArranjo (pecas : List PecaQtd) (larguraRolo comprimentoRolo : Int)
    (fuel : Nat) : Option (List Int) :=
  shelfHeights larguraRolo (if 0 < comprimentoRolo then some comprimentoRolo else none)
    fuel (sortDesc (expandPecas pecas)) 0

/-- Open-rectangle overlap, as in the specification: touching edges are
not overlap. -/
def overlaps (p q : Placement) : Prop :=
  p.x < q.x + q.largura ∧ q.x < p.x + p.largura ∧
  p.y < q.y + q.altura ∧ q.y < p.y + p.altura

instance (p q : Placement) : Decidable (overlaps p q) := by
  unfold overlaps; infer_instance

/-- Separation invariant between a placement and any later placement of a
shelf run: either both lie on the same shelf and the earlier one ends (in
x) before the later one starts, or the later one lies on a strictly lower
shelf, below the earlier piece's bottom edge. -/
def srel (p q : Placement) : Prop :=
  (p.y = q.y ∧ p.x + p.largura ≤ q.x) ∨ p.y + p.altura ≤ q.y

/-- The piece recorded in a placement. -/
def pecaOf (q : Placement) : Peca := ⟨q.largura, q.altura⟩

theorem insertDesc_perm (p : Peca) (l : List Peca) :
    List.Perm (insertDesc p l) (p :: l) := by
  induction l with
  | nil => rfl
  | cons q rest ih =>
    by_cases hc : q.altura ≤ p.altura
    · simp [insertDesc, hc]
    · simpa [insertDesc, hc] using (ih.cons q).trans (List.Perm.swap p q rest)

theorem insertDesc_sorted (p : Peca) (l : List Peca)
    (h : l.Pairwise (fun a b => b.altura ≤ a.altura)) :
    (insertDesc p l).Pairwise (fun a b => b.altura ≤ a.altura) := by
  induction l with
  | nil => simp [insertDesc]
  | cons q rest ih =>
    rcases List.pairwise_cons.1 h with ⟨hq, hrest⟩
    by_cases hc : q.altura ≤ p.altura
    · simp only [insertDesc, hc, if_true]
      refine List.pairwise_cons.2 ⟨?_, h⟩
      intro b hb
      rcases List.mem_cons.1 hb with rfl | hb
      · exact hc
      · exact le_trans (hq b hb) hc
    · simp only [insertDesc, hc, if_false]
      refine List.pairwise_cons.2 ⟨?_, ih hrest⟩
      intro b hb
      rcases List.mem_cons.1 ((insertDesc_perm p rest).mem_iff.1 hb) with rfl | hb
      · exact le_of_lt (lt_of_not_le hc)
      · exact hq b hb

theorem sortDesc_perm (l : List Peca) : List.Perm (sortDesc l) l := by
  induction l with
  | nil => rfl
  | cons p rest ih => exact (insertDesc_perm p (sortDesc rest)).trans (ih.cons p)

theorem sortDesc_sorted (l : List Peca) :
    (sortDesc l).Pairwise (fun a b => b.altura ≤ a.altura) := by
  induction l with
  | nil => simp [sortDesc]
  | cons p rest ih => exact insertDesc_sorted p (sortDesc rest) ih

theorem fillShelf_stop (W : Int) (cmax : Option Int) (y shelfA : Int)
    (hstop : leOpt (y + shelfA) cmax = false) :
    ∀ (l : List Peca) (x : Int), fillShelf W cmax y shelfA l x = ([], l) := by
  intro l
  induction l with
  | nil => intro x; rfl
  | cons p rest ih =>
    intro x
    by_cases h1 : x + p.largura ≤ W
    · simp [fillShelf, h1, hstop]
    · simp [fillShelf, h1, hstop, ih]

theorem fillShelf_placements (W : Int) (cmax : Option Int) (y shelfA : Int) :
    ∀ (l : List Peca) (x : Int), (∀ p ∈ l, 0 ≤ p.largura) →
    ∀ q ∈ (fillShelf W cmax y shelfA l x).1,
      q.y = y ∧ x ≤ q.x ∧ q.x + q.largura ≤ W ∧ pecaOf q ∈ l := by
  intro l
  induction l with
  | nil => intro x hw q hq; simp [fillShelf] at hq
  | cons p rest ih =>
    intro x hw q hq
    have hwp : 0 ≤ p.largura := hw p (List.mem_cons_self p rest)
    by_cases h1 : x + p.largura ≤ W
    · by_cases h2 : leOpt (y + shelfA) cmax = true
      · simp only [fillShelf, h1, if_true, h2, if_pos] at hq
        rcases List.mem_cons.1 hq with rfl | hq
        · exact ⟨rfl, le_refl _, h1, by simp [pecaOf]⟩
        · have hr := ih (x + p.largura) (fun a ha => hw a (List.mem_cons_of_mem p ha)) q hq
          exact ⟨hr.1, le_trans (by linarith) hr.2.1, hr.2.2.1,
            List.mem_cons_of_mem p hr.2.2.2⟩
      · rw [fillShelf, if_pos h1, if_neg (by simpa using h2)] at hq
        simp at hq
    · rw [fillShelf, if_neg h1] at hq
      have hr := ih x (fun a ha => hw a (List.mem_cons_of_mem p ha)) q hq
      exact ⟨hr.1, hr.2.1, hr.2.2.1, List.mem_cons_of_mem p hr.2.2.2⟩

theorem fillShelf_pairwiseX (W : Int) (cmax : Option Int) (y shelfA : Int) :
    ∀ (l : List Peca) (x : Int), (∀ p ∈ l, 0 ≤ p.largura) →
    (fillShelf W cmax y shelfA l x).1.Pairwise (fun a b => a.x + a.largura ≤ b.x) := by
  intro l
  induction l with
  | nil => intro x hw; simp [fillShelf]
  | cons p rest ih =>
    intro x hw
    have hwrest : ∀ a ∈ rest, 0 ≤ a.largura :=
      fun a ha => hw a (List.mem_cons_of_mem p ha)
    by_cases h1 : x + p.largura ≤ W
    · by_cases h2 : leOpt (y + shelfA) cmax = true
      · rw [fillShelf, if_pos h1, if_pos (by simpa using h2)]
        refine List.pairwise_cons.2 ⟨?_, ih (x + p.largura) hwrest⟩
        intro b hb
        exact (fillShelf_placements W cmax y shelfA rest (x + p.largura) hwrest b hb).2.1
      · rw [fillShelf, if_pos h1, if_neg (by simpa using h2)]
        simp
    · rw [fillShelf, if_neg h1]
      exact ih x hwrest

theorem fillShelf_rem_sublist (W : Int) (cmax : Option Int) (y shelfA : Int) :
    ∀ (l : List Peca) (x : Int), (fillShelf W cmax y shelfA l x).2.Sublist l := by
  intro l
  induction l with
  | nil => intro x; simp [fillShelf]
  | cons p rest ih =>
    intro x
    by_cases h1 : x + p.largura ≤ W
    · by_cases h2 : leOpt (y + shelfA) cmax = true
      · rw [fillShelf, if_pos h1, if_pos (by simpa using h2)]
        exact (ih (x + p.largura)).cons p
      · rw [fillShelf, if_pos h1, if_neg (by simpa using h2)]
    · rw [fillShelf, if_neg h1]
      exact (ih x).cons₂ p

theorem fillShelf_perm (W : Int) (cmax : Option Int) (y shelfA : Int) :
    ∀ (l : List Peca) (x : Int),
    List.Perm ((fillShelf W cmax y shelfA l x).1.map pecaOf ++
      (fillShelf W cmax y shelfA l x).2) l := by
  intro l
  induction l with
  | nil => intro x; simp [fillShelf]
  | cons p rest ih =>
    intro x
    by_cases h1 : x + p.largura ≤ W
    · by_cases h2 : leOpt (y + shelfA) cmax = true
      · rw [fillShelf, if_pos h1, if_pos (by simpa using h2)]
        simpa [pecaOf] using (ih (x + p.largura)).cons p
      · rw [fillShelf, if_pos h1, if_neg (by simpa using h2)]
        simp
    · rw [fillShelf, if_neg h1]
      exact (List.perm_middle).trans ((ih x).cons p)

theorem calcLoop_inv (W : Int) (cmax : Option Int) :
    ∀ (fuel : Nat) (l : List Peca) (y compr : Int) (pl : List Placement) (c : Int),
    (∀ p ∈ l, 0 < p.largura ∧ 0 < p.altura) →
    l.Pairwise (fun a b => b.altura ≤ a.altura) →
    0 ≤ y →
    calcLoop W cmax fuel l y compr = some (pl, c) →
    (∀ q ∈ pl, 0 ≤ q.x ∧ y ≤ q.y ∧ q.x + q.largura ≤ W ∧ 0 < q.largura ∧
       0 < q.altura ∧ ∀ m, cmax = some m → q.y + q.altura ≤ m) ∧
    pl.Pairwise srel := by
  intro fuel
  induction fuel with
  | zero =>
    intro l y compr pl c hpos hsort hy h
    cases l with
    | nil =>
      simp only [calcLoop, Option.some.injEq, Prod.mk.injEq] at h
      rcases h with ⟨h1, h2⟩
      subst h1
      simp
    | cons p rest => simp [calcLoop] at h
  | succ fuel ih =>
    intro l y compr pl c hpos hsort hy h
    cases l with
    | nil =>
      simp only [calcLoop, Option.some.injEq, Prod.mk.injEq] at h
      rcases h with ⟨h1, h2⟩
      subst h1
      simp
    | cons p rest =>
      have hwl : ∀ a ∈ p :: rest, 0 ≤ a.largura := fun a ha => (hpos a ha).1.le
      have hheadmax : ∀ a ∈ p :: rest, a.altura ≤ p.altura := by
        intro a ha
        rcases List.mem_cons.1 ha with rfl | ha
        · exact le_refl _
        · exact (List.pairwise_cons.1 hsort).1 a ha
      by_cases hb : leOpt (y + p.altura) cmax = true
      · rw [calcLoop] at h
        simp only [hb, if_true] at h
        rcases hrec : calcLoop W cmax fuel
            (fillShelf W cmax y p.altura (p :: rest) 0).2 (y + p.altura)
            (compr + p.altura) with _ | pc
        · rw [hrec] at h; simp at h
        · rcases pc with ⟨pl', c'⟩
          rw [hrec] at h
          simp only [Option.some.injEq, Prod.mk.injEq] at h
          rcases h with ⟨h1, h2⟩
          subst h1
          subst h2
          have hsubl := fillShelf_rem_sublist W cmax y p.altura (p :: rest) 0
          have hpos' : ∀ a ∈ (fillShelf W cmax y p.altura (p :: rest) 0).2,
              0 < a.largura ∧ 0 < a.altura := fun a ha => hpos a (hsubl.mem ha)
          have hsort' := hsort.sublist hsubl
          have hy' : (0 : Int) ≤ y + p.altura :=
            add_nonneg hy (hpos p (List.mem_cons_self p rest)).2.le
          rcases ih _ _ _ _ _ hpos' hsort' hy' hrec with ⟨G1, G2⟩
          have hfsP := fillShelf_placements W cmax y p.altura (p :: rest) 0 hwl
          have hshelf : ∀ q ∈ (fillShelf W cmax y p.altura (p :: rest) 0).1,
              0 ≤ q.x ∧ y ≤ q.y ∧ q.x + q.largura ≤ W ∧ 0 < q.largura ∧
              0 < q.altura ∧ ∀ m, cmax = some m → q.y + q.altura ≤ m := by
            intro q hq
            rcases hfsP q hq with ⟨hqy, hqx, hqw, hqmem⟩
            have hqpos := hpos _ hqmem
            have hqalt : q.altura ≤ p.altura := hheadmax _ hqmem
            refine ⟨hqx, le_of_eq hqy.symm, hqw, hqpos.1, hqpos.2, ?_⟩
            intro m hm
            rw [hm] at hb
            simp only [leOpt, decide_eq_true_eq] at hb
            rw [hqy]
            linarith
          constructor
          · intro q hq
            rcases List.mem_append.1 hq with hq | hq
            · exact hshelf q hq
            · rcases G1 q hq with ⟨a1, a2, a3, a4, a5, a6⟩
              exact ⟨a1, le_trans (le_trans (le_add_of_nonneg_right
                (hpos p (List.mem_cons_self p rest)).2.le) (le_refl _)) a2, a3, a4, a5, a6⟩
          · rw [List.pairwise_append]
            refine ⟨?_, G2, ?_⟩
            · have hpx := fillShelf_pairwiseX W cmax y p.altura (p :: rest) 0 hwl
              refine hpx.imp_of_mem ?_
              intro a b ha hb' hab
              exact Or.inl ⟨((hfsP a ha).1).trans ((hfsP b hb').1).symm, hab⟩
            · intro a ha b hb'
              rcases hfsP a ha with ⟨hay, _, _, hamem⟩
              have haalt : a.altura ≤ p.altura := hheadmax _ hamem
              have hby : y + p.altura ≤ b.y := (G1 b hb').2.1
              exact Or.inr (by rw [hay]; linarith)
      · rw [calcLoop] at h
        simp only [hb, if_false] at h
        rw [fillShelf_stop W cmax y p.altura (by simpa using hb) (p :: rest) 0] at h
        simp at h
        rcases h with ⟨h1, h2⟩
        subst h1
        simp

theorem calcLoop_compr (W : Int) (cmax : Option Int) :
    ∀ (fuel : Nat) (l : List Peca) (y compr : Int) (pl : List Placement) (c : Int),
    (∀ p ∈ l, 0 < p.largura ∧ 0 < p.altura) →
    l.Pairwise (fun a b => b.altura ≤ a.altura) →
    calcLoop W cmax fuel l y compr = some (pl, c) →
    ∃ d : Int, 0 ≤ d ∧ c = compr + d ∧
      (∀ q ∈ pl, q.y + q.altura ≤ y + d) ∧
      (∀ m, cmax = some m → y + d ≤ m ∨ d = 0) := by
  intro fuel
  induction fuel with
  | zero =>
    intro l y compr pl c hpos hsort h
    cases l with
    | nil =>
      simp only [calcLoop, Option.some.injEq, Prod.mk.injEq] at h
      rcases h with ⟨h1, h2⟩
      subst h1
      exact ⟨0, le_refl _, by omega, by simp, fun m hm => Or.inr rfl⟩
    | cons p rest => simp [calcLoop] at h
  | succ fuel ih =>
    intro l y compr pl c hpos hsort h
    cases l with
    | nil =>
      simp only [calcLoop, Option.some.injEq, Prod.mk.injEq] at h
      rcases h with ⟨h1, h2⟩
      subst h1
      exact ⟨0, le_refl _, by omega, by simp, fun m hm => Or.inr rfl⟩
    | cons p rest =>
      have hwl : ∀ a ∈ p :: rest, 0 ≤ a.largura := fun a ha => (hpos a ha).1.le
      have hheadmax : ∀ a ∈ p :: rest, a.altura ≤ p.altura := by
        intro a ha
        rcases List.mem_cons.1 ha with rfl | ha
        · exact le_refl _
        · exact (List.pairwise_cons.1 hsort).1 a ha
      have hpalt : 0 < p.altura := (hpos p (List.mem_cons_self p rest)).2
      by_cases hb : leOpt (y + p.altura) cmax = true
      · rw [calcLoop] at h
        simp only [hb, if_true] at h
        rcases hrec : calcLoop W cmax fuel
            (fillShelf W cmax y p.altura (p :: rest) 0).2 (y + p.altura)
            (compr + p.altura) with _ | pc
        · rw [hrec] at h; simp at h
        · rcases pc with ⟨pl', c'⟩
          rw [hrec] at h
          simp only [Option.some.injEq, Prod.mk.injEq] at h
          rcases h with ⟨h1, h2⟩
          subst h1
          subst h2
          have hsubl := fillShelf_rem_sublist W cmax y p.altura (p :: rest) 0
          have hpos' : ∀ a ∈ (fillShelf W cmax y p.altura (p :: rest) 0).2,
              0 < a.largura ∧ 0 < a.altura := fun a ha => hpos a (hsubl.mem ha)
          rcases ih _ _ _ _ _ hpos' (hsort.sublist hsubl) hrec with
            ⟨d, hd0, hdc, hdpl, hdm⟩
          refine ⟨p.altura + d, by linarith, by omega, ?_, ?_⟩
          · intro q hq
            rcases List.mem_append.1 hq with hq | hq
            · rcases fillShelf_placements W cmax y p.altura (p :: rest) 0 hwl q hq with
                ⟨hqy, _, _, hqmem⟩
              have := hheadmax _ hqmem
              rw [hqy]
              simp only [pecaOf] at this
              linarith
            · have := hdpl q hq
              linarith
          · intro m hm
            rw [hm] at hb
            simp only [leOpt, decide_eq_true_eq] at hb
            rcases hdm m hm with hle | hde
            · exact Or.inl (by linarith)
            · exact Or.inl (by omega)
      · rw [calcLoop] at h
        simp only [hb, if_false] at h
        rw [fillShelf_stop W cmax y p.altura (by simpa using hb) (p :: rest) 0] at h
        simp at h
        rcases h with ⟨h1, h2⟩
        subst h1
        exact ⟨0, le_refl _, by omega, by simp, fun m hm => Or.inr rfl⟩

theorem calcLoop_shelfSum (W : Int) (cmax : Option Int) :
    ∀ (fuel : Nat) (l : List Peca) (y compr : Int) (pl : List Placement) (c : Int),
    calcLoop W cmax fuel l y compr = some (pl, c) →
    ∃ hs : List Int, shelfHeights W cmax fuel l y = some hs ∧ c = compr + hs.sum := by
  intro fuel
  induction fuel with
  | zero =>
    intro l y compr pl c h
    cases l with
    | nil =>
      simp only [calcLoop, Option.some.injEq, Prod.mk.injEq] at h
      rcases h with ⟨h1, h2⟩
      exact ⟨[], rfl, by simp [← h2]⟩
    | cons p rest => simp [calcLoop] at h
  | succ fuel ih =>
    intro l y compr pl c h
    cases l with
    | nil =>
      simp only [calcLoop, Option.some.injEq, Prod.mk.injEq] at h
      rcases h with ⟨h1, h2⟩
      exact ⟨[], rfl, by simp [← h2]⟩
    | cons p rest =>
      by_cases hb : leOpt (y + p.altura) cmax = true
      · rw [calcLoop] at h
        simp only [hb, if_true] at h
        rcases hrec : calcLoop W cmax fuel
            (fillShelf W cmax y p.altura (p :: rest) 0).2 (y + p.altura)
            (compr + p.altura) with _ | pc
        · rw [hrec] at h; simp at h
        · rcases pc with ⟨pl', c'⟩
          rw [hrec] at h
          simp only [Option.some.injEq, Prod.mk.injEq] at h
          rcases ih _ _ _ _ _ hrec with ⟨hs, hhs, hsum⟩
          refine ⟨p.altura :: hs, ?_, ?_⟩
          · rw [shelfHeights]
            simp only [hb, if_true, hhs]
          · rw [← h.2]
            rw [hsum, List.sum_cons]
            ring
      · rw [calcLoop] at h
        simp only [hb, if_false] at h
        refine ⟨[], ?_, ?_⟩
        · rw [shelfHeights]
          simp [hb]
        · simp at h
          rcases h with ⟨h1, h2⟩
          simp [← h2]

theorem calcLoop_count (W : Int) (cmax : Option Int) :
    ∀ (fuel : Nat) (l : List Peca) (y compr : Int) (pl : List Placement) (c : Int),
    calcLoop W cmax fuel l y compr = some (pl, c) →
    ∀ a : Peca, (pl.map pecaOf).count a ≤ l.count a := by
  intro fuel
  induction fuel with
  | zero =>
    intro l y compr pl c h a
    cases l with
    | nil =>
      simp only [calcLoop, Option.some.injEq, Prod.mk.injEq] at h
      rcases h with ⟨h1, h2⟩
      subst h1
      simp
    | cons p rest => simp [calcLoop] at h
  | succ fuel ih =>
    intro l y compr pl c h a
    cases l with
    | nil =>
      simp only [calcLoop, Option.some.injEq, Prod.mk.injEq] at h
      rcases h with ⟨h1, h2⟩
      subst h1
      simp
    | cons p rest =>
      by_cases hb : leOpt (y + p.altura) cmax = true
      · rw [calcLoop] at h
        simp only [hb, if_true] at h
        rcases hrec : calcLoop W cmax fuel
            (fillShelf W cmax y p.altura (p :: rest) 0).2 (y + p.altura)
            (compr + p.altura) with _ | pc
        · rw [hrec] at h; simp at h
        · rcases pc with ⟨pl', c'⟩
          rw [hrec] at h
          simp only [Option.some.injEq, Prod.mk.injEq] at h
          rcases h with ⟨h1, h2⟩
          subst h1
          have hperm := (fillShelf_perm W cmax y p.altura (p :: rest) 0).count_eq a
          have hih := ih _ _ _ _ _ hrec a
          rw [List.count_append] at hperm
          rw [List.map_append, List.count_append]
          omega
      · rw [calcLoop] at h
        simp only [hb, if_false] at h
        rw [fillShelf_stop W cmax y p.altura (by simpa using hb) (p :: rest) 0] at h
        simp at h
        rcases h with ⟨h1, h2⟩
        subst h1
        simp

theorem fillShelf_nofit (W : Int) (cmax : Option Int) (y shelfA : Int) :
    ∀ (l : List Peca) (x : Int), (∀ p ∈ l, ¬ x + p.largura ≤ W) →
    fillShelf W cmax y shelfA l x = ([], l) := by
  intro l
  induction l with
  | nil => intro x hf; rfl
  | cons p rest ih =>
    intro x hf
    have h1 : ¬ x + p.largura ≤ W := hf p (List.mem_cons_self p rest)
    rw [fillShelf, if_neg h1, ih x (fun a ha => hf a (List.mem_cons_of_mem p ha))]

theorem calcLoop_unbounded_nofit (W : Int) :
    ∀ (fuel : Nat) (l : List Peca) (y compr : Int), l ≠ [] →
    (∀ p ∈ l, ¬ (0 : Int) + p.largura ≤ W) →
    calcLoop W none fuel l y compr = none := by
  intro fuel
  induction fuel with
  | zero =>
    intro l y compr hne hf
    cases l with
    | nil => exact absurd rfl hne
    | cons p rest => rfl
  | succ fuel ih =>
    intro l y compr hne hf
    cases l with
    | nil => exact absurd rfl hne
    | cons p rest =>
      rw [calcLoop]
      rw [fillShelf_nofit W none y p.altura (p :: rest) 0 hf]
      simp only [leOpt, if_true]
      rw [ih (p :: rest) (y + p.altura) (compr + p.altura) hne hf]

/-- Reference shelf scan written from the specification text (section 4.3):
scan the remaining unplaced instances in order and place each at
(x-cursor, shelf-y) exactly when it fits within stockWidth and within the
length bound; otherwise skip it and continue scanning later instances
rather than closing the shelf at the first miss. -/
def refFillShelf (W : Int) (cmax : Option Int) (y shelfA : Int) :
    List Peca → Int → List Placement × List Peca
  | [], _ => ([], [])
  | p :: rest, x =>
    if x + p.largura ≤ W ∧ leOpt (y + shelfA) cmax = true then
      let r := refFillShelf W cmax y shelfA rest (x + p.largura)
      (⟨x, y, p.largura, p.altura⟩ :: r.1, r.2)
    else
      let r := refFillShelf W cmax y shelfA rest x
      (r.1, p :: r.2)

/-- Reference shelf loop written from the specification text: open each
shelf with fixed height equal to the tallest remaining unplaced instance
(the head of the height-descending list) and the x-cursor at 0; stop when
all instances are placed or the next shelf would exceed the length bound;
otherwise fill the shelf, advance y by the shelf height and repeat. -/
def refLoop (W : Int) (cmax : Option Int) :
    Nat → List Peca → Int → Option (List Placement)
  | _, [], _ => some []
  | 0, _ :: _, _ => none
  | fuel + 1, p :: rest, y =>
    if leOpt (y + p.altura) cmax then
      let r := refFillShelf W cmax y p.altura (p :: rest) 0
      match refLoop W cmax fuel r.2 (y + p.altura) with
      | some pl => some (r.1 ++ pl)
      | none => none
    else
      some []

/-- Reference procedure of the specification: expand the piece types in
input order into quantity-many instances, stable-sort by height
descending, and run the reference shelf loop. -/
def refArranjo (pecas : List PecaQtd) (larguraRolo comprimentoRolo : Int)
    (fuel : Nat) : Option (List Placement) :=
  refLoop larguraRolo (if 0 < comprimentoRolo then some comprimentoRolo else none)
    fuel (sortDesc (expandPecas pecas)) 0

theorem refFillShelf_eq (W : Int) (cmax : Option Int) (y shelfA : Int)
    (hok : leOpt (y + shelfA) cmax = true) :
    ∀ (l : List Peca) (x : Int),
    refFillShelf W cmax y shelfA l x = fillShelf W cmax y shelfA l x := by
  intro l
  induction l with
  | nil => intro x; rfl
  | cons p rest ih =>
    intro x
    by_cases h1 : x + p.largura ≤ W
    · rw [refFillShelf, if_pos ⟨h1, hok⟩, fillShelf, if_pos h1,
        if_pos (by simpa using hok), ih]
    · rw [refFillShelf, if_neg (by tauto), fillShelf, if_neg h1, ih]

theorem calcLoop_refLoop (W : Int) (cmax : Option Int) :
    ∀ (fuel : Nat) (l : List Peca) (y compr : Int) (pl : List Placement) (c : Int),
    calcLoop W cmax fuel l y compr = some (pl, c) →
    refLoop W cmax fuel l y = some pl := by
  intro fuel
  induction fuel with
  | zero =>
    intro l y compr pl c h
    cases l with
    | nil =>
      simp only [calcLoop, Option.some.injEq, Prod.mk.injEq] at h
      rcases h with ⟨h1, h2⟩
      subst h1
      rfl
    | cons p rest => simp [calcLoop] at h
  | succ fuel ih =>
    intro l y compr pl c h
    cases l with
    | nil =>
      simp only [calcLoop, Option.some.injEq, Prod.mk.injEq] at h
      rcases h with ⟨h1, h2⟩
      subst h1
      rfl
    | cons p rest =>
      by_cases hb : leOpt (y + p.altura) cmax = true
      · rw [calcLoop] at h
        simp only [hb, if_true] at h
        rcases hrec : calcLoop W cmax fuel
            (fillShelf W cmax y p.altura (p :: rest) 0).2 (y + p.altura)
            (compr + p.altura) with _ | pc
        · rw [hrec] at h; simp at h
        · rcases pc with ⟨pl', c'⟩
          rw [hrec] at h
          simp only [Option.some.injEq, Prod.mk.injEq] at h
          rcases h with ⟨h1, h2⟩
          subst h1
          rw [refLoop]
          simp only [hb, if_true]
          rw [refFillShelf_eq W cmax y p.altura hb, ih _ _ _ _ _ hrec]
      · rw [calcLoop] at h
        simp only [hb, if_false] at h
        rw [fillShelf_stop W cmax y p.altura (by simpa using hb) (p :: rest) 0] at h
        simp at h
        rcases h with ⟨h1, h2⟩
        subst h1
        rw [refLoop]
        simp [hb]

/-- Modelled from the spec: a PieceType of the backend engine data model
(backend/src, not included under src/): width, height, integer quantity
and an allowRotation flag. -/
structure PieceType where
  width : Int
  height : Int
  quantity : Int
  allowRotation : Bool
deriving DecidableEq, Repr

/-- Modelled from the spec: a PieceInstance of the backend engine
(backend/src, not included under src/): per-instance dimensions and the
rotation permission inherited from its PieceType. -/
structure PieceInstance where
  width : Int
  height : Int
  allowRotation : Bool
deriving DecidableEq, Repr

/-- Modelled from the spec: the error kinds of the backend engine
(backend/src, not included under src/). -/
inductive ErrorKind
  | InvalidInput
  | UnknownAlgorithm
  | InfeasibleProblem
  | SolverError
deriving DecidableEq, Repr

/-- Modelled from the spec: the backend Piece Expander (backend/src, not
included under src/): it turns the ordered PieceType list into
quantity-many instances per type preserving order, and fails with
InvalidInput when some width or height is not positive or some quantity
is below 1. -/
def expanderRun (pieces : List PieceType) : Except ErrorKind (List PieceInstance) :=
  if pieces.any (fun p => decide (p.width ≤ 0) || decide (p.height ≤ 0) ||
      decide (p.quantity < 1)) then
    Except.error ErrorKind.InvalidInput
  else
    Except.ok (pieces.flatMap fun p =>
      List.replicate p.quantity.toNat ⟨p.width, p.height, p.allowRotation⟩)

/-- The piece seen by the width-only shelf scan for an instance taken in
its given orientation. -/
def pecaOfInstance (p : PieceInstance) : Peca := ⟨p.width, p.height⟩

/-- Modelled from the spec: the engine pipeline for the shelf strategy
(backend/src, not included under src/): Expander first, then the shelf
placement; an Expander failure aborts the run before any placement. -/
def engineRun (pieces : List PieceType) (stockWidth stockHeight : Int)
    (fuel : Nat) : Except ErrorKind (Option (List Placement × Int)) :=
  match expanderRun pieces with
  | Except.error e => Except.error e
  | Except.ok insts =>
      Except.ok (calcLoop stockWidth
        (if 0 < stockHeight then some stockHeight else none) fuel
        (sortDesc (insts.map pecaOfInstance)) 0 0)

/-- Modelled from the spec: the rotation decision of the backend rotating
shelf heuristic (backend/src, not included under src/): an instance is
rotated exactly when rotation is allowed and rotating strictly improves
fit, read as: the rotated width (its height) is strictly smaller than its
width and fits the remaining row capacity, while the rotated height (its
width) does not exceed the shelf height. -/
def rotateStep (W x shelfA : Int) (p : PieceInstance) : PieceInstance :=
  if p.allowRotation = true ∧ p.height < p.width ∧ x + p.height ≤ W ∧
      p.width ≤ shelfA then
    ⟨p.height, p.width, p.allowRotation⟩
  else
    p

/-- Modelled from the spec: the rotating shelf scan of the backend
heuristic (backend/src, not included under src/): each scanned instance is
first subjected to the rotation decision, then placed exactly when it fits
the remaining row width and the length bound, otherwise skipped. -/
def fillShelfRot (W : Int) (cmax : Option Int) (y shelfA : Int) :
    List PieceInstance → Int → List Placement × List PieceInstance
  | [], _ => ([], [])
  | p :: rest, x =>
    let q := rotateStep W x shelfA p
    if x + q.width ≤ W ∧ leOpt (y + shelfA) cmax = true then
      let r := fillShelfRot W cmax y shelfA rest (x + q.width)
      (⟨x, y, q.width, q.height⟩ :: r.1, r.2)
    else
      let r := fillShelfRot W cmax y shelfA rest x
      (r.1, p :: r.2)

/-- Modelled from the spec: the wall-clock watchdog and completion logic
of the optimize-cutting IPC handler (frontend/public/electron.js): the
spawned Python process either closes within the 30000 ms timeout, in
which case exit code 0 with parseable JSON output resolves to that JSON
and anything else rejects, or the timeout fires first, in which case the
process is killed and the promise is rejected with a Timeout error. -/
structure PythonRun where
  durationMs : Int
  exitCode : Int
  parsedOutput : Option Bool
deriving DecidableEq, Repr

/-- Outcome of the optimize-cutting IPC promise: resolved with the parsed
JSON (abstracted to its isOptimal field) or rejected with an error
message. -/
inductive IpcOutcome
  | resolved (isOptimal : Bool)
  | rejected (msg : String)
deriving DecidableEq, Repr

/-- The optimize-cutting handler of electron.js: a 30000 ms setTimeout
kills the Python process and rejects; otherwise the close handler resolves
the parsed JSON on exit code 0 and rejects on a parse failure or a
non-zero exit code. -/
def optimizeCuttingHandler (run : PythonRun) : IpcOutcome :=
  if 30000 < run.durationMs then
    IpcOutcome.rejected "Timeout: Python process demorou muito para responder"
  else if run.exitCode = 0 then
    match run.parsedOutput with
    | some b => IpcOutcome.resolved b
    | none => IpcOutcome.rejected "Nao foi possivel processar o resultado do Python"
  else
    IpcOutcome.rejected "Erro no Python"

theorem mem_expandPecas (pecas : List PecaQtd) (a : Peca) :
    a ∈ expandPecas pecas → ∃ p ∈ pecas, a = ⟨p.largura, p.altura⟩ := by
  induction pecas with
  | nil => intro ha; simp [expandPecas] at ha
  | cons p rest ih =>
    intro ha
    rcases List.mem_append.1 ha with ha | ha
    · exact ⟨p, List.mem_cons_self _ _, List.eq_of_mem_replicate ha⟩
    · rcases ih ha with ⟨q, hq, he⟩
      exact ⟨q, List.mem_cons_of_mem p hq, he⟩

theorem sorted_expand_pos (pecas : List PecaQtd)
    (hpos : ∀ p ∈ pecas, 0 < p.largura ∧ 0 < p.altura) :
    ∀ a ∈ sortDesc (expandPecas pecas), 0 < a.largura ∧ 0 < a.altura := by
  intro a ha
  rcases mem_expandPecas pecas a ((sortDesc_perm _).mem_iff.1 ha) with ⟨p, hp, he⟩
  subst he
  exact ⟨(hpos p hp).1, (hpos p hp).2⟩

theorem srel_not_overlaps (p q : Placement) (h : srel p q) : ¬ overlaps p q := by
  rcases h with ⟨hy, hx⟩ | hy
  · intro ho
    exact absurd ho.2.1 (not_lt.2 hx)
  · intro ho
    exact absurd ho.2.2.2 (not_lt.2 hy)

/-- C1: for every input list of pieces with positive widths and heights and
a positive stock width, no two placements in the sequence returned by the
shelf placement calcularArranjo overlap, where overlap is the open-rectangle
predicate (touching edges are not overlap). -/
theorem C1_no_overlap (pecas : List PecaQtd) (larguraRolo comprimentoRolo : Int)
    (fuel : Nat) (pl : List Placement) (c : Int)
    (hpos : ∀ p ∈ pecas, 0 < p.largura ∧ 0 < p.altura)
    (hW : 0 < larguraRolo)
    (h : calcularArranjo pecas larguraRolo comprimentoRolo fuel = some (pl, c)) :
    pl.Pairwise (fun p q => ¬ overlaps p q) := by
  have hinv := calcLoop_inv larguraRolo
    (if 0 < comprimentoRolo then some comprimentoRolo else none)
    fuel (sortDesc (expandPecas pecas)) 0 0 pl c
    (sorted_expand_pos pecas hpos) (sortDesc_sorted _) (le_refl 0) h
  exact hinv.2.imp (fun hab => srel_not_overlaps _ _ hab)

/-- Witness for C1 at a concrete input: two 50 by 100 pieces on a roll of
width 100 and length 100 are placed side by side without overlap. -/
theorem C1_no_overlap_witness :
    ([⟨0, 0, 50, 100⟩, ⟨50, 0, 50, 100⟩] : List Placement).Pairwise
      (fun p q => ¬ overlaps p q) :=
  C1_no_overlap [⟨50, 100, 2⟩] 100 100 3 [⟨0, 0, 50, 100⟩, ⟨50, 0, 50, 100⟩] 100
    (by decide) (by decide) (by decide)

/-- C2 counterexample: with two requested 100 by 100 instances on a
100-wide roll bounded at length 100, calcularArranjo returns a single
placement and the consumed length; the second instance appears nowhere in
the returned value, which has no unplaced component at all, so the claim
that every instance is placed exactly once or explicitly reported unplaced
fails on this input. -/
theorem C2_counterexample :
    calcularArranjo [⟨100, 100, 2⟩] 100 100 3 = some ([⟨0, 0, 100, 100⟩], 100) ∧
    (expandPecas [⟨100, 100, 2⟩]).length = 2 := by decide

/-- C2 amended: every placement of calcularArranjo consumes a distinct
requested instance — the multiset of placed dimension pairs is contained
in the multiset of expanded instances, so no instance is placed twice and
no placement is invented — but instances that are not placed (in
particular all instances remaining when the length-bound stop triggers)
are simply absent from the returned value, which carries no unplaced
report. -/
theorem C2_amended (pecas : List PecaQtd) (larguraRolo comprimentoRolo : Int)
    (fuel : Nat) (pl : List Placement) (c : Int)
    (h : calcularArranjo pecas larguraRolo comprimentoRolo fuel = some (pl, c)) :
    ∀ a : Peca, (pl.map pecaOf).count a ≤ (expandPecas pecas).count a := by
  intro a
  have hc := calcLoop_count larguraRolo
    (if 0 < comprimentoRolo then some comprimentoRolo else none)
    fuel (sortDesc (expandPecas pecas)) 0 0 pl c h a
  rwa [(sortDesc_perm (expandPecas pecas)).count_eq a] at hc

/-- Witness for the amended C2 at the counterexample input: one placed
100 by 100 instance against two requested ones. -/
theorem C2_amended_witness :
    (([⟨0, 0, 100, 100⟩] : List Placement).map pecaOf).count ⟨100, 100⟩ ≤
      (expandPecas [⟨100, 100, 2⟩]).count ⟨100, 100⟩ :=
  C2_amended [⟨100, 100, 2⟩] 100 100 3 [⟨0, 0, 100, 100⟩] 100 (by decide) ⟨100, 100⟩

/-- C3: on the failing input — a single 1300 by 100 piece, roll width 1200,
unbounded length — the JavaScript loop of calcularArranjo diverges: it
opens empty shelves forever, so the embedded loop returns none for every
fuel, the run never terminates, and no unplaced report is ever produced,
contradicting the claimed termination with explicit unplaced reporting. -/
theorem C3_divergence :
    ∀ fuel : Nat, calcularArranjo [⟨1300, 100, 1⟩] 1200 0 fuel = none := by
  intro fuel
  show calcLoop 1200 none fuel [⟨1300, 100⟩] 0 0 = none
  exact calcLoop_unbounded_nofit 1200 fuel [⟨1300, 100⟩] 0 0 (by simp) (by decide)

/-- C4: every placement produced by calcularArranjo on pieces with positive
dimensions satisfies x at least 0, y at least 0 and x + width at most the
stock width; when the length is bounded (comprimentoRolo positive) it also
satisfies y + height at most that bound, and when the length is unbounded
the bound check is skipped and the tracked consumed length covers every
placement instead. -/
theorem C4_containment (pecas : List PecaQtd) (larguraRolo comprimentoRolo : Int)
    (fuel : Nat) (pl : List Placement) (c : Int)
    (hpos : ∀ p ∈ pecas, 0 < p.largura ∧ 0 < p.altura)
    (h : calcularArranjo pecas larguraRolo comprimentoRolo fuel = some (pl, c)) :
    ∀ q ∈ pl, 0 ≤ q.x ∧ 0 ≤ q.y ∧ q.x + q.largura ≤ larguraRolo ∧
      (0 < comprimentoRolo → q.y + q.altura ≤ comprimentoRolo) ∧
      (¬ 0 < comprimentoRolo → q.y + q.altura ≤ c) := by
  intro q hq
  have hinv := calcLoop_inv larguraRolo
    (if 0 < comprimentoRolo then some comprimentoRolo else none)
    fuel (sortDesc (expandPecas pecas)) 0 0 pl c
    (sorted_expand_pos pecas hpos) (sortDesc_sorted _) (le_refl 0) h
  rcases hinv.1 q hq with ⟨a1, a2, a3, _, _, a6⟩
  rcases calcLoop_compr larguraRolo
      (if 0 < comprimentoRolo then some comprimentoRolo else none)
      fuel (sortDesc (expandPecas pecas)) 0 0 pl c
      (sorted_expand_pos pecas hpos) (sortDesc_sorted _) h with ⟨d, hd0, hdc, hdpl, _⟩
  refine ⟨a1, a2, a3, ?_, ?_⟩
  · intro hcr
    exact a6 comprimentoRolo (by rw [if_pos hcr])
  · intro hcr
    have := hdpl q hq
    omega

/-- Witness for C4 at a concrete input: the side-by-side run on a bounded
roll, checked at its first placement. -/
theorem C4_containment_witness :
    0 ≤ (⟨0, 0, 50, 100⟩ : Placement).x ∧ 0 ≤ (⟨0, 0, 50, 100⟩ : Placement).y ∧
    (⟨0, 0, 50, 100⟩ : Placement).x + (⟨0, 0, 50, 100⟩ : Placement).largura ≤ 100 ∧
    (0 < (100 : Int) → (⟨0, 0, 50, 100⟩ : Placement).y +
      (⟨0, 0, 50, 100⟩ : Placement).altura ≤ 100) ∧
    (¬ 0 < (100 : Int) → (⟨0, 0, 50, 100⟩ : Placement).y +
      (⟨0, 0, 50, 100⟩ : Placement).altura ≤ 100) :=
  C4_containment [⟨50, 100, 2⟩] 100 100 3 [⟨0, 0, 50, 100⟩, ⟨50, 0, 50, 100⟩] 100
    (by decide) (by decide) ⟨0, 0, 50, 100⟩ (by decide)

theorem rotateStep_cases (W x shelfA : Int) (p : PieceInstance) :
    rotateStep W x shelfA p = p ∨
    (p.allowRotation = true ∧
      rotateStep W x shelfA p = ⟨p.height, p.width, p.allowRotation⟩) := by
  unfold rotateStep
  by_cases hc : p.allowRotation = true ∧ p.height < p.width ∧ x + p.height ≤ W ∧
      p.width ≤ shelfA
  · exact Or.inr ⟨hc.1, by rw [if_pos hc]⟩
  · exact Or.inl (by rw [if_neg hc])

/-- C5 (modelled from the spec, the rotating shelf heuristic lives in the
backend absent from src): the rotation decision of the shelf scan rotates
an instance exactly when rotation is allowed and rotating strictly
improves fit, an instance whose piece type forbids rotation is never
rotated, and every placement the rotating scan produces carries either the
original orientation of some scanned instance or, only when that instance
allows rotation, the rotated one. -/
theorem C5_rotation (W : Int) (cmax : Option Int) (y shelfA : Int) :
    (∀ (x : Int) (p : PieceInstance), p.allowRotation = false →
      rotateStep W x shelfA p = p) ∧
    (∀ (x : Int) (p : PieceInstance), p.allowRotation = true →
      p.height < p.width → x + p.height ≤ W → p.width ≤ shelfA →
      rotateStep W x shelfA p = ⟨p.height, p.width, true⟩) ∧
    (∀ (l : List PieceInstance) (x : Int),
      ∀ q ∈ (fillShelfRot W cmax y shelfA l x).1, ∃ p, p ∈ l ∧
        ((q.largura = p.width ∧ q.altura = p.height) ∨
         (p.allowRotation = true ∧ q.largura = p.height ∧ q.altura = p.width))) := by
  refine ⟨?_, ?_, ?_⟩
  · intro x p hp
    unfold rotateStep
    rw [if_neg]
    rintro ⟨h1, _⟩
    rw [hp] at h1
    exact Bool.false_ne_true h1
  · intro x p hp h1 h2 h3
    unfold rotateStep
    rw [if_pos ⟨hp, h1, h2, h3⟩, hp]
  · intro l
    induction l with
    | nil => intro x q hq; simp [fillShelfRot] at hq
    | cons p rest ih =>
      intro x q hq
      by_cases hc : x + (rotateStep W x shelfA p).width ≤ W ∧
          leOpt (y + shelfA) cmax = true
      · rw [fillShelfRot] at hq
        simp only [hc, and_self, if_pos] at hq
        rcases List.mem_cons.1 hq with rfl | hq
        · refine ⟨p, List.mem_cons_self p rest, ?_⟩
          rcases rotateStep_cases W x shelfA p with he | ⟨hall, he⟩
          · left
            rw [he]
            exact ⟨rfl, rfl⟩
          · right
            rw [he]
            exact ⟨hall, rfl, rfl⟩
        · rcases ih (x + (rotateStep W x shelfA p).width) q hq with ⟨a, hal, hq2⟩
          exact ⟨a, List.mem_cons_of_mem p hal, hq2⟩
      · rw [fillShelfRot] at hq
        simp only [hc, if_neg, if_false] at hq
        rcases ih x q hq with ⟨a, hal, hq2⟩
        exact ⟨a, List.mem_cons_of_mem p hal, hq2⟩

/-- Witness for C5 at concrete inputs: a rotation-allowed 80 by 40
instance is rotated on a 100-wide row under a 90-high shelf, and the same
instance with rotation forbidden is left untouched. -/
theorem C5_rotation_witness :
    rotateStep 100 0 90 ⟨80, 40, true⟩ = ⟨40, 80, true⟩ ∧
    rotateStep 100 0 90 ⟨80, 40, false⟩ = ⟨80, 40, false⟩ :=
  ⟨(C5_rotation 100 none 0 90).2.1 0 ⟨80, 40, true⟩ rfl (by decide) (by decide)
      (by decide),
   (C5_rotation 100 none 0 90).1 0 ⟨80, 40, false⟩ rfl⟩

/-- C6: whenever calcularArranjo terminates, its placement sequence equals
that of the reference procedure written from the specification (expand in
input order, stable sort by height descending, shelves of the tallest
remaining height filled by the skip-and-continue scan, stopping when the
next shelf would exceed the length bound). The pieces of calcularArranjo
carry no rotation flag, so the no-rotation hypothesis of the claim holds
for every input. -/
theorem C6_reference (pecas : List PecaQtd) (larguraRolo comprimentoRolo : Int)
    (fuel : Nat) (pl : List Placement) (c : Int)
    (h : calcularArranjo pecas larguraRolo comprimentoRolo fuel = some (pl, c)) :
    refArranjo pecas larguraRolo comprimentoRolo fuel = some pl :=
  calcLoop_refLoop larguraRolo
    (if 0 < comprimentoRolo then some comprimentoRolo else none)
    fuel (sortDesc (expandPecas pecas)) 0 0 pl c h

/-- Witness for C6 at a concrete input: the reference procedure reproduces
the two side-by-side placements of calcularArranjo. -/
theorem C6_reference_witness :
    refArranjo [⟨50, 100, 2⟩] 100 100 3 =
      some [⟨0, 0, 50, 100⟩, ⟨50, 0, 50, 100⟩] :=
  C6_reference [⟨50, 100, 2⟩] 100 100 3 [⟨0, 0, 50, 100⟩, ⟨50, 0, 50, 100⟩] 100
    (by decide)

/-- C7 (modelled from the spec, the Expander lives in the backend absent
from src): when some requested piece has non-positive width or height or
quantity below 1, the engine fails with InvalidInput before any placement:
the returned value is the bare error, containing no partial result. -/
theorem C7_invalid_input (pieces : List PieceType) (stockWidth stockHeight : Int)
    (fuel : Nat)
    (hinv : ∃ p ∈ pieces, p.width ≤ 0 ∨ p.height ≤ 0 ∨ p.quantity < 1) :
    engineRun pieces stockWidth stockHeight fuel =
      Except.error ErrorKind.InvalidInput := by
  rcases hinv with ⟨p, hp, hc⟩
  have hany : pieces.any (fun p => decide (p.width ≤ 0) || decide (p.height ≤ 0) ||
      decide (p.quantity < 1)) = true := by
    refine List.any_eq_true.2 ⟨p, hp, ?_⟩
    rcases hc with hc | hc | hc <;> simp [hc]
  unfold engineRun expanderRun
  rw [if_pos hany]

/-- Witness for C7 at a concrete input: a piece with zero width makes the
engine fail with InvalidInput. -/
theorem C7_invalid_input_witness :
    engineRun [⟨0, 10, 1, false⟩] 100 100 3 =
      Except.error ErrorKind.InvalidInput :=
  C7_invalid_input [⟨0, 10, 1, false⟩] 100 100 3
    ⟨⟨0, 10, 1, false⟩, by decide, by decide⟩

/-- C8 counterexample: a Python run that takes 40000 ms — longer than the
30000 ms wall-clock timeout — even with exit code 0 and parseable output,
is rejected by the optimize-cutting handler with a Timeout error, so the
claim that expiry of the time limit is never surfaced as an error and
still yields a best-effort result fails on this input. -/
theorem C8_counterexample :
    optimizeCuttingHandler ⟨40000, 0, some false⟩ =
      IpcOutcome.rejected "Timeout: Python process demorou muito para responder" := by
  decide

/-- C8 amended: whenever the 30000 ms wall-clock timeout expires before
the Python optimization process closes, the optimize-cutting handler kills
the process and rejects the request with a Timeout error; no result,
best-effort or otherwise, is returned. -/
theorem C8_amended (run : PythonRun) (h : 30000 < run.durationMs) :
    optimizeCuttingHandler run =
      IpcOutcome.rejected "Timeout: Python process demorou muito para responder" := by
  unfold optimizeCuttingHandler
  rw [if_pos h]

/-- Witness for the amended C8 at a concrete input. -/
theorem C8_amended_witness :
    optimizeCuttingHandler ⟨40001, 1, none⟩ =
      IpcOutcome.rejected "Timeout: Python process demorou muito para responder" :=
  C8_amended ⟨40001, 1, none⟩ (by decide)

/-- C9: on termination of calcularArranjo with pieces of positive
dimensions, the reported consumed length equals the sum of the heights of
every shelf opened without triggering the length-bound stop — shelves on
which nothing was placed included — it covers y + height of every
placement, and when the length bound is positive it never exceeds it. -/
theorem C9_consumed_length (pecas : List PecaQtd) (larguraRolo comprimentoRolo : Int)
    (fuel : Nat) (pl : List Placement) (c : Int)
    (hpos : ∀ p ∈ pecas, 0 < p.largura ∧ 0 < p.altura)
    (h : calcularArranjo pecas larguraRolo comprimentoRolo fuel = some (pl, c)) :
    (∃ hs : List Int, shelfHeightsArranjo pecas larguraRolo comprimentoRolo fuel =
      some hs ∧ c = hs.sum) ∧
    (∀ q ∈ pl, q.y + q.altura ≤ c) ∧
    (0 < comprimentoRolo → c ≤ comprimentoRolo) := by
  rcases calcLoop_shelfSum larguraRolo
      (if 0 < comprimentoRolo then some comprimentoRolo else none)
      fuel (sortDesc (expandPecas pecas)) 0 0 pl c h with ⟨hs, hhs, hsum⟩
  rcases calcLoop_compr larguraRolo
      (if 0 < comprimentoRolo then some comprimentoRolo else none)
      fuel (sortDesc (expandPecas pecas)) 0 0 pl c
      (sorted_expand_pos pecas hpos) (sortDesc_sorted _) h with ⟨d, hd0, hdc, hdpl, hdm⟩
  refine ⟨⟨hs, hhs, by omega⟩, ?_, ?_⟩
  · intro q hq
    have := hdpl q hq
    omega
  · intro hcr
    rcases hdm comprimentoRolo (by rw [if_pos hcr]) with hle | hde
    · omega
    · omega

/-- Witness for C9 at a concrete input with an empty shelf: a single
20 by 5 piece is too wide for a 10-wide roll bounded at length 7; one
empty shelf of height 5 is opened before the stop, so the consumed length
is 5 with no placements, matching the recorded shelf heights and the
bound. -/
theorem C9_consumed_length_witness :
    (∃ hs : List Int, shelfHeightsArranjo [⟨20, 5, 1⟩] 10 7 3 = some hs ∧
      (5 : Int) = hs.sum) ∧
    (∀ q ∈ ([] : List Placement), q.y + q.altura ≤ (5 : Int)) ∧
    (0 < (7 : Int) → (5 : Int) ≤ 7) :=
  C9_consumed_length [⟨20, 5, 1⟩] 10 7 3 [] 5 (by decide) (by decide)

/-- C10 counterexample: two zero-width pieces of positive height 10 are
both placed at x = 0 on the same shelf, so the claimed strictly increasing
x within a shelf fails for an input whose pieces all have positive
heights. -/
theorem C10_counterexample :
    calcularArranjo [⟨0, 10, 2⟩] 100 0 3 =
      some ([⟨0, 0, 0, 10⟩, ⟨0, 0, 0, 10⟩], 10) ∧
    ¬ ([⟨0, 0, 0, 10⟩, ⟨0, 0, 0, 10⟩] : List Placement).Pairwise
        (fun p q => p.y ≤ q.y ∧ (p.y = q.y → p.x < q.x)) := by decide

/-- C10 amended: when every piece has positive width as well as positive
height, the placement sequence of calcularArranjo is ordered by
non-decreasing y with strictly increasing x among equal-y placements;
equal y characterizes one shelf (so shelves are contiguous) and placements
of later shelves have strictly greater y. -/
theorem C10_amended (pecas : List PecaQtd) (larguraRolo comprimentoRolo : Int)
    (fuel : Nat) (pl : List Placement) (c : Int)
    (hpos : ∀ p ∈ pecas, 0 < p.largura ∧ 0 < p.altura)
    (h : calcularArranjo pecas larguraRolo comprimentoRolo fuel = some (pl, c)) :
    pl.Pairwise (fun p q => p.y ≤ q.y ∧ (p.y = q.y → p.x < q.x)) := by
  have hinv := calcLoop_inv larguraRolo
    (if 0 < comprimentoRolo then some comprimentoRolo else none)
    fuel (sortDesc (expandPecas pecas)) 0 0 pl c
    (sorted_expand_pos pecas hpos) (sortDesc_sorted _) (le_refl 0) h
  refine hinv.2.imp_of_mem ?_
  intro a b ha hb hab
  rcases hinv.1 a ha with ⟨_, _, _, haw, hah, _⟩
  rcases hab with ⟨hy, hx⟩ | hy
  · exact ⟨le_of_eq hy, fun _ => by linarith⟩
  · constructor
    · linarith
    · intro he
      exfalso
      linarith

/-- Witness for the amended C10 at a concrete input: two 60 by 30 pieces
on a 100-wide roll go on two consecutive shelves with increasing y. -/
theorem C10_amended_witness :
    ([⟨0, 0, 60, 30⟩, ⟨0, 30, 60, 30⟩] : List Placement).Pairwise
      (fun p q => p.y ≤ q.y ∧ (p.y = q.y → p.x < q.x)) :=
  C10_amended [⟨60, 30, 2⟩] 100 100 3 [⟨0, 0, 60, 30⟩, ⟨0, 30, 60, 30⟩] 60
    (by decide) (by decide)
